import Mathlib

/- Shallow embedding of the HCT knowledge-search engine
   (src/knowledge_search.py, class KnowledgeSearch), together with the
   state it manipulates (the on-disk Whoosh index directory and the
   in-memory index handle).  Strings are modelled as `List Char` wrapped
   in Lean `String`s; Python's ASCII-range text operations are modelled
   character by character. -/

/-- Python whitespace as used by `str.split()`, `str.strip()` and the
regex class `\s` (ASCII range). -/
def isPySpace (c : Char) : Bool :=
  c = ' ' || c = '\t' || c = '\n' || c = '\r' || c = '\x0b' || c = '\x0c'

/-- Python regex word character `\w` (ASCII range), used for the `\b`
word boundaries in `normalize_query`'s patterns. -/
def isWordChar (c : Char) : Bool :=
  ('a' ≤ c && c ≤ 'z') || ('A' ≤ c && c ≤ 'Z') || ('0' ≤ c && c ≤ '9') || c = '_'

/-- Python `str.lower` on one character (ASCII range). -/
def lowerChar (c : Char) : Char :=
  if 'A' ≤ c && c ≤ 'Z' then Char.ofNat (c.toNat + 32) else c

/-- Python `str.lower`. -/
def lowerStr (s : List Char) : List Char := s.map lowerChar

/-- Strip the literal character sequence `p` from the head of `s`,
returning the remainder on success. -/
def leadMatch : List Char → List Char → Option (List Char)
  | [], s => some s
  | _ :: _, [] => none
  | p :: ps, c :: cs => if c = p then leadMatch ps cs else none

/-- Match `a0 :: arest`, then (when `gap` is set) a maximal run of
whitespace, then `b`, at the head of `s`, requiring that the character
following the match is not a word character (the pattern's trailing
`\b`; every pattern of `normalize_query` ends in a word character).
Returns the remainder of `s` after the matched text. -/
def matchPat (gap : Bool) (a0 : Char) (arest b : List Char) (s : List Char) :
    Option (List Char) :=
  match leadMatch (a0 :: arest) s with
  | none => none
  | some r1 =>
    match leadMatch b (if gap then r1.dropWhile isPySpace else r1) with
    | none => none
    | some r3 =>
      match r3 with
      | [] => some []
      | d :: _ => if isWordChar d then none else some r3

/-- One pass of Python `re.sub` for a pattern of the shape
`\b A \s* B \b` (or `\b A B \b` when `gap = false`): scan left to right,
attempt the pattern only at positions preceded by a non-word character
(the leading `\b`; every pattern starts with a word character), emit the
replacement on a match and resume after the matched text of the original
string.  `prevW` records whether the previous original character was a
word character; after a match it is set from the matched text's last
character, which is a word character for every pattern used here.
`fuel` only bounds the recursion; all uses supply `fuel ≥ s.length`. -/
def subFuel (gap : Bool) (a0 : Char) (arest b repl : List Char) :
    Nat → Bool → List Char → List Char
  | 0, _, _ => []
  | _ + 1, _, [] => []
  | fuel + 1, prevW, c :: cs =>
    if prevW then c :: subFuel gap a0 arest b repl fuel (isWordChar c) cs
    else
      match matchPat gap a0 arest b (c :: cs) with
      | some rest => repl ++ subFuel gap a0 arest b repl fuel true rest
      | none => c :: subFuel gap a0 arest b repl fuel (isWordChar c) cs

/-- One `re.sub(pattern, repl, s)` call of `normalize_query`. -/
def subPass (gap : Bool) (a0 : Char) (arest b repl s : List Char) : List Char :=
  subFuel gap a0 arest b repl s.length false s

/-- The five `re.sub` product-name rewrites of `normalize_query`, in
source order — `\bf\s*500\b → f-500`, `\bf500\b → f-500`,
`\bhydro\s*lock\b → hydrolock`, `\bpinnacle\s*foam\b → pinnacle`,
`\bdust\s*wash\b → dust-wash` (src/knowledge_search.py lines 90-101). -/
def ruleChain (n0 : List Char) : List Char :=
  let n1 := subPass true 'f' [] "500".data "f-500".data n0
  let n2 := subPass false 'f' "500".data [] "f-500".data n1
  let n3 := subPass true 'h' "ydro".data "lock".data "hydrolock".data n2
  let n4 := subPass true 'p' "innacle".data "foam".data "pinnacle".data n3
  subPass true 'd' "ust".data "wash".data "dust-wash".data n4

/-- `KnowledgeSearch.normalize_query` (src/knowledge_search.py lines
83-103): lowercase the query, then apply the five product-name rewrite
rules in source order. -/
def normList (q : List Char) : List Char := ruleChain (lowerStr q)

/-- `KnowledgeSearch.normalize_query` on Lean strings. -/
def normalize_query (q : String) : String := ⟨normList q.data⟩

theorem toNat_ofNat_of_lt (n : Nat) (h : n < 0xd800) :
    (Char.ofNat n).toNat = n := by
  unfold Char.ofNat
  rw [dif_pos (Or.inl h)]
  rfl

theorem lowerChar_lowerChar (c : Char) : lowerChar (lowerChar c) = lowerChar c := by
  unfold lowerChar
  by_cases h : ('A' ≤ c && c ≤ 'Z') = true
  · rw [if_pos h]
    have hA : 'A' ≤ c := by simpa using (Bool.and_elim_left h)
    have hZ : c ≤ 'Z' := by simpa using (Bool.and_elim_right h)
    have hle : c.toNat ≤ 90 := hZ
    have htn : (Char.ofNat (c.toNat + 32)).toNat = c.toNat + 32 :=
      toNat_ofNat_of_lt _ (by omega)
    have hno : ¬ ('A' ≤ Char.ofNat (c.toNat + 32) && Char.ofNat (c.toNat + 32) ≤ 'Z') = true := by
      intro hc
      have h2 : (Char.ofNat (c.toNat + 32)) ≤ 'Z' := by simpa using (Bool.and_elim_right hc)
      have h3 : (Char.ofNat (c.toNat + 32)).toNat ≤ 90 := h2
      have hge : 65 ≤ c.toNat := hA
      omega
    rw [if_neg hno]
  · rw [if_neg h, if_neg h]

theorem lowerStr_lowerStr (s : List Char) : lowerStr (lowerStr s) = lowerStr s := by
  induction s with
  | nil => rfl
  | cons c cs ih =>
    simp only [lowerStr, List.map_cons] at ih ⊢
    rw [lowerChar_lowerChar, ih]

/-- Claim C4: `normalize_query` satisfies the spec's five concrete
examples: `"f 500" ↦ "f-500"`, `"F500 aviation" ↦ "f-500 aviation"`,
`"hydro lock" ↦ "hydrolock"`, `"pinnacle foam spray" ↦ "pinnacle spray"`
and `"dust  wash"` (two spaces) `↦ "dust-wash"`. -/
theorem normalize_query_examples :
    normalize_query "f 500" = "f-500" ∧
    normalize_query "F500 aviation" = "f-500 aviation" ∧
    normalize_query "hydro lock" = "hydrolock" ∧
    normalize_query "pinnacle foam spray" = "pinnacle spray" ∧
    normalize_query "dust  wash" = "dust-wash" := by
  refine ⟨?_, ?_, ?_, ?_, ?_⟩ <;> decide

/-- Claim C3 counterexample: `normalize_query` is not idempotent.  On
`"pinnacle foam foam"` the pinnacle rule rewrites the leading
`"pinnacle foam"` to `"pinnacle"` and resumes scanning after the matched
text, so one pass yields `"pinnacle foam"`; a second pass rewrites that
to `"pinnacle"`. -/
theorem normalize_query_not_idempotent :
    normalize_query (normalize_query "pinnacle foam foam") ≠
      normalize_query "pinnacle foam foam" := by
  decide

theorem ruleChain_of_lowerStr_eq (q : String)
    (h : normalize_query q = ⟨lowerStr q.data⟩) :
    normalize_query (normalize_query q) = normalize_query q := by
  have hd : normList q.data = lowerStr q.data := congrArg String.data h
  show ⟨normList (normList q.data)⟩ = normalize_query q
  rw [hd]
  show ⟨ruleChain (lowerStr (lowerStr q.data))⟩ = normalize_query q
  rw [lowerStr_lowerStr]
  show normalize_query q = normalize_query q
  rfl

/-- Claim C3 (amended): normalization is idempotent on every query that
the rewrite rules leave unchanged (the first pass only lowercases it),
and on each of the spec's five example queries; in general a second
pass can rewrite further, as on `"pinnacle foam foam"`. -/
theorem normalize_query_idem_cases :
    (∀ q : String, normalize_query q = ⟨lowerStr q.data⟩ →
      normalize_query (normalize_query q) = normalize_query q) ∧
    normalize_query (normalize_query "f 500") = normalize_query "f 500" ∧
    normalize_query (normalize_query "F500 aviation") =
      normalize_query "F500 aviation" ∧
    normalize_query (normalize_query "hydro lock") =
      normalize_query "hydro lock" ∧
    normalize_query (normalize_query "pinnacle foam spray") =
      normalize_query "pinnacle foam spray" ∧
    normalize_query (normalize_query "dust  wash") =
      normalize_query "dust  wash" :=
  ⟨ruleChain_of_lowerStr_eq, by decide, by decide, by decide, by decide, by decide⟩

theorem normalize_query_idem_cases_witness :
    normalize_query "Hello World" = ⟨lowerStr "Hello World".data⟩ ∧
    normalize_query (normalize_query "Hello World") =
      normalize_query "Hello World" :=
  ⟨by decide, normalize_query_idem_cases.1 "Hello World" (by decide)⟩

/-- Python `str.split()` with no argument: whitespace-separated words,
empty chunks discarded. -/
def pySplit (s : List Char) : List (List Char) :=
  (s.splitOnP isPySpace).filter (fun w => !w.isEmpty)

/-- Python `str.strip()` with no argument: remove leading and trailing
whitespace. -/
def pyStrip (s : List Char) : List Char :=
  ((s.dropWhile isPySpace).reverse.dropWhile isPySpace).reverse

/-- Python `str.find`: the first index at which `needle` occurs in the
list (`none` for Python's `-1`). -/
def firstOcc (needle : List Char) : List Char → Option Nat
  | [] =>
    match needle with
    | [] => some 0
    | _ :: _ => none
  | c :: cs =>
    if (leadMatch needle (c :: cs)).isSome then some 0
    else (firstOcc needle cs).map (· + 1)

/-- The accumulating loop of `get_snippet` (src/knowledge_search.py
lines 169-173): starting from `len(content)`, take each term's first
occurrence position when it improves on the accumulator. -/
def earliestFold (cl : List Char) (e : Nat) (terms : List (List Char)) : Nat :=
  terms.foldl
    (fun e t =>
      match firstOcc t cl with
      | some p => if p < e then p else e
      | none => e) e

/-- `KnowledgeSearch.get_snippet` (src/knowledge_search.py lines
161-191): find the earliest occurrence of any whitespace-separated
query term in the lowercased content; if none occurs return the
stripped first `snippet_length` characters, otherwise return the
stripped window `[max(0, pos-100), min(len, pos+snippet_length))`
with `"..."` markers for a truncated start or end. -/
def get_snippet (content query : String) (snippet_length : Nat := 300) : String :=
  let query_terms := pySplit (lowerStr query.data)
  let content_lower := lowerStr content.data
  let n := content.data.length
  let earliest_pos := earliestFold content_lower n query_terms
  if earliest_pos = n then ⟨pyStrip (content.data.take snippet_length)⟩
  else
    let start := earliest_pos - 100
    let e := min n (earliest_pos + snippet_length)
    let snip0 := pyStrip ((content.data.drop start).take (e - start))
    let snip1 := if 0 < start then "...".data ++ snip0 else snip0
    ⟨if e < n then snip1 ++ "...".data else snip1⟩

/-- The spec's snippet window (spec §4.1, Snippet contract): the
substring spanning `[max(0, pos-100), min(len(content), pos+L))`,
trimmed, with a leading ellipsis iff the window does not start at 0 and
a trailing ellipsis iff it does not reach the end of `content`. -/
def snippetWindowSpec (content : String) (L pos : Nat) : String :=
  let n := content.data.length
  let start := pos - 100
  let e := min n (pos + L)
  let core := pyStrip ((content.data.drop start).take (e - start))
  let core1 := if 0 < start then "...".data ++ core else core
  ⟨if e < n then core1 ++ "...".data else core1⟩

theorem pySplit_ne_nil {w s : List Char} (h : w ∈ pySplit s) : w ≠ [] := by
  have := (List.mem_filter.mp h).2
  simpa [List.isEmpty_eq_false] using this

theorem firstOcc_occurs {t : List Char} {s : List Char} {p : Nat}
    (h : firstOcc t s = some p) : (leadMatch t (s.drop p)).isSome = true := by
  induction s generalizing p with
  | nil =>
    match t, h with
    | [], h =>
      have : p = 0 := by simpa [firstOcc] using h.symm
      subst this
      rfl
  | cons c cs ih =>
    by_cases h1 : (leadMatch t (c :: cs)).isSome = true
    · have hp : p = 0 := by
        have := h
        simp [firstOcc, h1] at this
        omega
      subst hp
      simpa using h1
    · have h2 : (firstOcc t cs).map (· + 1) = some p := by
        simpa [firstOcc, h1] using h
      rcases Option.map_eq_some'.mp h2 with ⟨q, hq, rfl⟩
      simpa using ih hq

theorem firstOcc_min {t : List Char} {s : List Char} {p : Nat}
    (h : firstOcc t s = some p) :
    ∀ j, j < p → (leadMatch t (s.drop j)).isSome = false := by
  induction s generalizing p with
  | nil =>
    match t, h with
    | [], h =>
      have : p = 0 := by simpa [firstOcc] using h.symm
      subst this
      omega
  | cons c cs ih =>
    intro j hj
    by_cases h1 : (leadMatch t (c :: cs)).isSome = true
    · have hp : p = 0 := by
        have := h
        simp [firstOcc, h1] at this
        omega
      omega
    · have h2 : (firstOcc t cs).map (· + 1) = some p := by
        simpa [firstOcc, h1] using h
      rcases Option.map_eq_some'.mp h2 with ⟨q, hq, rfl⟩
      match j with
      | 0 => simpa using h1
      | j' + 1 =>
        have : j' < q := by omega
        simpa using ih hq j' this

theorem firstOcc_none {t : List Char} {s : List Char}
    (h : firstOcc t s = none) :
    ∀ j, (leadMatch t (s.drop j)).isSome = false := by
  induction s with
  | nil =>
    intro j
    match t, h with
    | t0 :: ts, _ => simp [leadMatch]
  | cons c cs ih =>
    intro j
    by_cases h1 : (leadMatch t (c :: cs)).isSome = true
    · simp [firstOcc, h1] at h
    · have h2 : firstOcc t cs = none := by
        have := h
        simp [firstOcc, h1] at this
        exact this
      match j with
      | 0 => simpa using h1
      | j' + 1 => simpa using ih h2 j'

theorem occurs_firstOcc {t : List Char} {s : List Char} {j : Nat}
    (h : (leadMatch t (s.drop j)).isSome = true) :
    ∃ p, firstOcc t s = some p ∧ p ≤ j := by
  match h2 : firstOcc t s with
  | none => simp [firstOcc_none h2 j] at h
  | some p =>
    refine ⟨p, rfl, ?_⟩
    by_contra hc
    have : j < p := by omega
    simp [firstOcc_min h2 j this] at h

theorem firstOcc_lt_len {t : List Char} {s : List Char} {p : Nat}
    (ht : t ≠ []) (h : firstOcc t s = some p) : p < s.length := by
  have hocc := firstOcc_occurs h
  by_contra hc
  have hdrop : s.drop p = [] := by
    have := List.length_drop p s
    have hlen : (s.drop p).length = 0 := by omega
    exact List.length_eq_zero.mp hlen
  rw [hdrop] at hocc
  match t, ht with
  | t0 :: ts, _ => simp [leadMatch] at hocc

theorem earliestFold_le (cl : List Char) (ts : List (List Char)) :
    ∀ e, earliestFold cl e ts ≤ e := by
  induction ts with
  | nil => intro e; exact Nat.le_refl e
  | cons t ts ih =>
    intro e
    show earliestFold cl
        (match firstOcc t cl with
          | some p => if p < e then p else e
          | none => e) ts ≤ e
    match firstOcc t cl with
    | some p =>
      by_cases hp : p < e
      · simp only [hp, if_pos]
        exact Nat.le_trans (ih p) (Nat.le_of_lt hp)
      · simp only [hp, if_neg]
        exact ih e
    | none => exact ih e

theorem earliestFold_mem (cl : List Char) (ts : List (List Char)) :
    ∀ e, earliestFold cl e ts = e ∨
      ∃ t ∈ ts, firstOcc t cl = some (earliestFold cl e ts) := by
  induction ts with
  | nil => intro e; exact Or.inl rfl
  | cons t ts ih =>
    intro e
    have hstep : ∀ P : Nat → Prop,
        P (earliestFold cl
          (match firstOcc t cl with
            | some p => if p < e then p else e
            | none => e) ts) → P (earliestFold cl e (t :: ts)) :=
      fun _ h => h
    refine hstep (fun r => r = e ∨ ∃ t' ∈ t :: ts, firstOcc t' cl = some r) ?_
    match hf : firstOcc t cl with
    | some p =>
      by_cases hp : p < e
      · simp only [hp, if_pos]
        rcases ih p with h | ⟨t', ht', hfo⟩
        · exact Or.inr ⟨t, List.mem_cons_self t ts, by rw [h]; exact hf⟩
        · exact Or.inr ⟨t', List.mem_cons_of_mem t ht', hfo⟩
      · simp only [hp, if_neg]
        rcases ih e with h | ⟨t', ht', hfo⟩
        · exact Or.inl h
        · exact Or.inr ⟨t', List.mem_cons_of_mem t ht', hfo⟩
    | none =>
      rcases ih e with h | ⟨t', ht', hfo⟩
      · exact Or.inl h
      · exact Or.inr ⟨t', List.mem_cons_of_mem t ht', hfo⟩

theorem earliestFold_min (cl : List Char) (ts : List (List Char)) :
    ∀ e, ∀ t ∈ ts, ∀ p, firstOcc t cl = some p → earliestFold cl e ts ≤ p := by
  induction ts with
  | nil => intro e t ht; exact absurd ht (List.not_mem_nil t)
  | cons t ts ih =>
    intro e t' ht' p hp
    rcases List.mem_cons.mp ht' with rfl | hmem
    · show earliestFold cl
          (match firstOcc t' cl with
            | some q => if q < e then q else e
            | none => e) ts ≤ p
      rw [hp]
      by_cases hq : p < e
      · simp only [hq, if_pos]
        exact earliestFold_le cl ts p
      · simp only [hq, if_neg]
        exact Nat.le_trans (earliestFold_le cl ts e) (by omega)
    · show earliestFold cl
          (match firstOcc t cl with
            | some q => if q < e then q else e
            | none => e) ts ≤ p
      match firstOcc t cl with
      | some q =>
        by_cases hq : q < e
        · simp only [hq, if_pos]
          exact ih q t' hmem p hp
        · simp only [hq, if_neg]
          exact ih e t' hmem p hp
      | none => exact ih e t' hmem p hp

theorem earliestFold_none (cl : List Char) (ts : List (List Char))
    (h : ∀ t ∈ ts, firstOcc t cl = none) : ∀ e, earliestFold cl e ts = e := by
  induction ts with
  | nil => intro e; rfl
  | cons t ts ih =>
    intro e
    show earliestFold cl
        (match firstOcc t cl with
          | some p => if p < e then p else e
          | none => e) ts = e
    rw [h t (List.mem_cons_self t ts)]
    exact ih (fun t' ht' => h t' (List.mem_cons_of_mem t ht')) e


/-- Claim C5: whenever at least one whitespace-separated term of the
(normalized, lowercased) query occurs in the lowercased content,
`get_snippet` returns exactly the spec's snippet window — the substring
`[max(0, pos-100), min(len(content), pos+L))` around the earliest
occurrence position `pos` of any query term, trimmed, with a leading
ellipsis iff the window start is positive and a trailing ellipsis iff
the window end is short of the end of the content. -/
theorem get_snippet_match_spec (content query : String) (L : Nat)
    (h : ∃ t ∈ pySplit (lowerStr query.data), ∃ j,
        (leadMatch t ((lowerStr content.data).drop j)).isSome = true) :
    ∃ pos,
      (∃ t ∈ pySplit (lowerStr query.data),
        (leadMatch t ((lowerStr content.data).drop pos)).isSome = true) ∧
      (∀ j, j < pos → ∀ t ∈ pySplit (lowerStr query.data),
        (leadMatch t ((lowerStr content.data).drop j)).isSome = false) ∧
      get_snippet content query L = snippetWindowSpec content L pos := by
  rcases h with ⟨t, ht, j, hocc⟩
  rcases occurs_firstOcc hocc with ⟨p, hfo, hpj⟩
  have hcl : (lowerStr content.data).length = content.data.length := by
    simp [lowerStr]
  have hle : earliestFold (lowerStr content.data) content.data.length
      (pySplit (lowerStr query.data)) ≤ p :=
    earliestFold_min _ _ _ t ht p hfo
  have hplt : p < content.data.length := by
    have := firstOcc_lt_len (pySplit_ne_nil ht) hfo
    omega
  have hlt : earliestFold (lowerStr content.data) content.data.length
      (pySplit (lowerStr query.data)) < content.data.length := by omega
  have hne : ¬ (earliestFold (lowerStr content.data) content.data.length
      (pySplit (lowerStr query.data)) = content.data.length) := by omega
  refine ⟨earliestFold (lowerStr content.data) content.data.length
      (pySplit (lowerStr query.data)), ?_, ?_, ?_⟩
  · rcases earliestFold_mem (lowerStr content.data)
        (pySplit (lowerStr query.data)) content.data.length with heq | ⟨t', ht', hfo'⟩
    · omega
    · exact ⟨t', ht', firstOcc_occurs hfo'⟩
  · intro j' hj' t'' ht''
    match hocc' : (leadMatch t'' ((lowerStr content.data).drop j')).isSome with
    | false => rfl
    | true =>
      rcases occurs_firstOcc hocc' with ⟨q, hq, hqj⟩
      have := earliestFold_min (lowerStr content.data)
        (pySplit (lowerStr query.data)) content.data.length t'' ht'' q hq
      omega
  · simp only [get_snippet, snippetWindowSpec]
    rw [if_neg hne]

theorem get_snippet_match_spec_witness :
    (∃ t ∈ pySplit (lowerStr "CDE".data), ∃ j,
        (leadMatch t ((lowerStr "abcdef".data).drop j)).isSome = true) ∧
    (∃ pos,
      (∃ t ∈ pySplit (lowerStr "CDE".data),
        (leadMatch t ((lowerStr "abcdef".data).drop pos)).isSome = true) ∧
      (∀ j, j < pos → ∀ t ∈ pySplit (lowerStr "CDE".data),
        (leadMatch t ((lowerStr "abcdef".data).drop j)).isSome = false) ∧
      get_snippet "abcdef" "CDE" 300 = snippetWindowSpec "abcdef" 300 pos) :=
  ⟨⟨"cde".data, by decide, 2, by decide⟩,
    get_snippet_match_spec "abcdef" "CDE" 300
      ⟨"cde".data, by decide, 2, by decide⟩⟩

/-- Claim C6: when no whitespace-separated term of the (normalized,
lowercased) query occurs anywhere in the lowercased content,
`get_snippet` returns the first `L` characters of the content, trimmed
of surrounding whitespace, with no ellipsis markers added. -/
theorem get_snippet_fallback_spec (content query : String) (L : Nat)
    (h : ∀ t ∈ pySplit (lowerStr query.data), ∀ j,
        (leadMatch t ((lowerStr content.data).drop j)).isSome = false) :
    get_snippet content query L = ⟨pyStrip (content.data.take L)⟩ := by
  have hnone : ∀ t ∈ pySplit (lowerStr query.data),
      firstOcc t (lowerStr content.data) = none := by
    intro t ht
    match hf : firstOcc t (lowerStr content.data) with
    | none => rfl
    | some p =>
      have hocc := firstOcc_occurs hf
      rw [h t ht p] at hocc
      exact absurd hocc (by simp)
  have hfold := earliestFold_none (lowerStr content.data) _ hnone content.data.length
  simp only [get_snippet]
  rw [hfold, if_pos rfl]

theorem get_snippet_fallback_spec_witness :
    (∀ t ∈ pySplit (lowerStr "xyz".data), ∀ j,
        (leadMatch t ((lowerStr "hello world".data).drop j)).isSome = false) ∧
    get_snippet "hello world" "xyz" 300 = ⟨pyStrip ("hello world".data.take 300)⟩ := by
  have hyp : ∀ t ∈ pySplit (lowerStr "xyz".data), ∀ j,
      (leadMatch t ((lowerStr "hello world".data).drop j)).isSome = false := by
    intro t ht j
    have hts : pySplit (lowerStr "xyz".data) = ["xyz".data] := by decide
    rw [hts] at ht
    rcases List.mem_singleton.mp ht with rfl
    exact firstOcc_none (by decide) j
  exact ⟨hyp, get_snippet_fallback_spec "hello world" "xyz" 300 hyp⟩

/-- A document record as produced by the scanners and consumed by
`KnowledgeSearch.create_index` (the fields written at
src/knowledge_search.py lines 53-61). -/
structure Doc where
  filename : String
  path : String
  category : String
  product : String
  subcategory : String
  topic : String
  content : String
  deriving DecidableEq, Repr

/-- The persisted state of the index location: whether the index
directory exists, and the entries of a valid persisted index there
(`none` when the directory is absent or does not open as an index). -/
structure IndexDir where
  dirExists : Bool
  store : Option (List Doc)
  deriving DecidableEq, Repr

/-- The `KnowledgeSearch` object state: the persisted location plus
the in-memory index handle `self.ix` (`none` until built or loaded). -/
structure KS where
  fs : IndexDir
  ix : Option (List Doc)
  deriving DecidableEq, Repr

/-- `KnowledgeSearch.create_index` (src/knowledge_search.py lines
28-67): if the index directory is missing, create it together with a
fresh empty index; otherwise open the existing index when possible and
fall back to a fresh one; then add every given document through a
writer and commit.  `add_document` only ever adds entries. -/
def create_index (documents : List Doc) (s : KS) : KS :=
  let opened : List Doc :=
    if s.fs.dirExists then
      match s.fs.store with
      | some l => l
      | none => []
    else []
  let entries := opened ++ documents
  { fs := { dirExists := true, store := some entries }, ix := some entries }

/-- `KnowledgeSearch.load_index` (src/knowledge_search.py lines 69-81):
when the index directory exists and opens successfully, set `self.ix`
and report success; otherwise report failure and leave the state. -/
def load_index (s : KS) : Bool × KS :=
  if s.fs.dirExists then
    match s.fs.store with
    | some l => (true, { s with ix := some l })
    | none => (false, s)
  else (false, s)

/-- One element of `search`'s result list (src/knowledge_search.py
lines 139-150); the opaque relevance score, used for display only, is
omitted. -/
structure SearchResult where
  rank : Nat
  filename : String
  path : String
  category : String
  product : String
  subcategory : String
  topic : String
  snippet : String
  full_content : String
  deriving DecidableEq, Repr

/-- The `for i, hit in enumerate(results)` loop of `search`
(src/knowledge_search.py lines 135-152): one result per hit, with
1-based `rank` `i + 1` and a snippet extracted from the hit's content
with the normalized query. -/
def buildResults (normalized : String) : Nat → List Doc → List SearchResult
  | _, [] => []
  | i, h :: t =>
    { rank := i + 1
      filename := h.filename
      path := h.path
      category := h.category
      product := h.product
      subcategory := h.subcategory
      topic := h.topic
      snippet := get_snippet h.content normalized
      full_content := h.content } :: buildResults normalized (i + 1) t

/-- The searcher block of `search` (src/knowledge_search.py lines
114-159), given the loaded entries.  The Whoosh engine is not part of
this repository; it enters as two parameters: `parse`, the
`MultifieldParser.parse` step, which may fail, and `run`, the engine's
ranked retrieval over the loaded entries.  `searcher.search(query,
limit=max_results)` truncates its output to `max_results` hits
(modelled from the spec: "Retrieve up to `maxResults` entries in
descending relevance-score order").  The body installs no failure
handler, so a `parse` failure propagates. -/
def searchCore {Q : Type} (parse : String → Except String Q)
    (run : Q → List Doc → List Doc) (s : KS) (entries : List Doc)
    (query_text : String) (max_results : Nat) :
    Except String (List SearchResult × KS) :=
  let normalized := normalize_query query_text
  match parse normalized with
  | .error e => .error e
  | .ok q => .ok (buildResults normalized 0 ((run q entries).take max_results), s)

/-- `KnowledgeSearch.search` (src/knowledge_search.py lines 105-159):
when no in-memory index handle is set, first try `load_index`,
returning an empty result list when that fails; then normalize the
query, parse it and retrieve up to `max_results` ranked hits. -/
def search {Q : Type} (parse : String → Except String Q)
    (run : Q → List Doc → List Doc) (s : KS)
    (query_text : String) (max_results : Nat) :
    Except String (List SearchResult × KS) :=
  match s.ix with
  | some entries => searchCore parse run s entries query_text max_results
  | none =>
    match load_index s with
    | (true, s2) => searchCore parse run s2 (s2.ix.getD []) query_text max_results
    | (false, s2) => .ok ([], s2)

/-- Comma-separated keyword tokens of a stored KEYWORD field value,
each trimmed (modelled from the spec: keyword fields are comma-joinable
multi-value sets matched on exact literal tokens, with no stemming). -/
def keywordTokens (v : String) : List (List Char) :=
  (v.data.splitOnP (fun c => c = ',')).map pyStrip

/-- The engine's term query on the `product` keyword field for the
lowercased product name (modelled from the spec: a keyword field is
"matched on exact literal tokens"; only the query side is lowercased
by `get_by_product`, the stored tokens are compared literally). -/
def productMatch (name : String) (d : Doc) : Bool :=
  (keywordTokens d.product).contains (lowerStr name.data)

/-- One element of `get_by_product`'s result list
(src/knowledge_search.py lines 207-213: only filename, path, category,
topic and content are copied out). -/
structure ProductResult where
  filename : String
  path : String
  category : String
  topic : String
  content : String
  deriving DecidableEq, Repr

/-- The projection of a stored entry performed inside
`get_by_product`'s hit loop (src/knowledge_search.py lines 206-213). -/
def toProductResult (h : Doc) : ProductResult :=
  { filename := h.filename, path := h.path, category := h.category,
    topic := h.topic, content := h.content }

/-- The searcher block of `get_by_product` (src/knowledge_search.py
lines 201-213), given the loaded entries. -/
def gbpCore (entries : List Doc) (product_name : String) (max_results : Nat) :
    List ProductResult :=
  (((entries.filter (productMatch product_name)).take max_results).map
    toProductResult)

/-- `KnowledgeSearch.get_by_product` (src/knowledge_search.py lines
193-215): load the index if needed (empty result when that fails),
then return up to `max_results` entries whose `product` keyword field
matches the lowercased product name. -/
def get_by_product (s : KS) (product_name : String) (max_results : Nat) :
    List ProductResult × KS :=
  match s.ix with
  | some entries => (gbpCore entries product_name max_results, s)
  | none =>
    match load_index s with
    | (true, s2) => (gbpCore (s2.ix.getD []) product_name max_results, s2)
    | (false, s2) => ([], s2)

/-- A concrete prior-index document used in concrete instances. -/
def docA : Doc :=
  { filename := "B_F500_AM_Aviation.txt", path := "", category := "B",
    product := "F500", subcategory := "AM", topic := "Aviation",
    content := "alpha" }

/-- A concrete newly scanned document used in concrete instances. -/
def docB : Doc :=
  { filename := "B_HydroLock_VM_Vapor.txt", path := "", category := "B",
    product := "HydroLock", subcategory := "VM", topic := "Vapor",
    content := "beta" }

/-- Claim C1 counterexample: with an existing, openable index already
holding `docA`, calling `create_index` again with `[docB]` yields an
index that still holds `docA`: the build is additive and does not
discard the prior index, so the result is not exactly the new entry
set. -/
theorem create_index_not_fresh :
    (create_index [docB]
        { fs := { dirExists := true, store := some [docA] }, ix := none }).ix
      ≠ some [docB] := by
  decide

/-- Claim C1 (amended): `create_index` writes every given document and
commits, but discards a prior index only when the index directory is
absent or fails to open; when a prior index opens successfully the
resulting index holds the prior entries followed by the new ones (and
only in the no-prior-index case exactly the new documents). -/
theorem create_index_additive (documents : List Doc) (s : KS) :
    (create_index documents s).ix =
      some ((match s.fs.dirExists, s.fs.store with
        | true, some l => l
        | _, _ => []) ++ documents) ∧
    (create_index documents s).fs.store = (create_index documents s).ix := by
  rcases s with ⟨⟨de, st⟩, ix⟩
  cases de <;> cases st <;> simp [create_index]

/-- Claim C2: when the index directory exists and opens successfully
(the persisted index holds `l`), `create_index` preserves every
previously indexed document and only appends the given ones: the
resulting index holds exactly `l ++ documents` — the union of the
pre-existing and the new entries, with no pre-existing entry removed. -/
theorem create_index_keeps_existing (documents : List Doc) (s : KS)
    (l : List Doc) (hdir : s.fs.dirExists = true) (hst : s.fs.store = some l) :
    (create_index documents s).ix = some (l ++ documents) ∧
    ∀ d ∈ l, d ∈ l ++ documents := by
  refine ⟨?_, fun d hd => List.mem_append_left _ hd⟩
  simp [create_index, hdir, hst]

theorem create_index_keeps_existing_witness :
    ({ fs := { dirExists := true, store := some [docA] }, ix := none } : KS).fs.dirExists
        = true ∧
    ({ fs := { dirExists := true, store := some [docA] }, ix := none } : KS).fs.store
        = some [docA] ∧
    (create_index [docB]
        { fs := { dirExists := true, store := some [docA] }, ix := none }).ix
      = some ([docA] ++ [docB]) :=
  ⟨rfl, rfl,
    (create_index_keeps_existing [docB]
      { fs := { dirExists := true, store := some [docA] }, ix := none }
      [docA] rfl rfl).1⟩

/-- Claim C9: `search` called with no in-memory index handle first
attempts to load the persisted index: when no valid persisted index
exists the call returns an empty result list (an `ok` value, not a
failure), and when one exists the call proceeds exactly as the search
body over the loaded entries. -/
theorem search_unloaded {Q : Type} (parse : String → Except String Q)
    (run : Q → List Doc → List Doc) (s : KS) (q : String) (k : Nat)
    (hix : s.ix = none) :
    ((s.fs.dirExists = false ∨ s.fs.store = none) →
      search parse run s q k = .ok ([], s)) ∧
    (∀ l, s.fs.dirExists = true → s.fs.store = some l →
      search parse run s q k =
        searchCore parse run { s with ix := some l } l q k) := by
  constructor
  · intro h
    rcases s with ⟨⟨de, st⟩, ix⟩
    cases hix
    rcases h with h | h
    · cases h
      rfl
    · cases h
      cases de <;> rfl
  · intro l hdir hst
    rcases s with ⟨⟨de, st⟩, ix⟩
    cases hix
    cases hdir
    cases hst
    rfl

/-- A parse step that always succeeds, standing in for Whoosh's parser
in concrete instances. -/
def okParse : String → Except String String := fun n => .ok n

/-- A retrieval step returning the loaded entries in index order,
standing in for Whoosh's scorer in concrete instances. -/
def idRun : String → List Doc → List Doc := fun _ l => l

/-- A state with no index directory and nothing loaded. -/
def ksEmpty : KS := { fs := { dirExists := false, store := none }, ix := none }

/-- A state whose index is built and loaded with `docA` and `docB`. -/
def ksLoaded : KS :=
  { fs := { dirExists := true, store := some [docA, docB] },
    ix := some [docA, docB] }

theorem search_unloaded_witness :
    ksEmpty.ix = none ∧
    search okParse idRun ksEmpty "f 500" 5 = .ok ([], ksEmpty) :=
  ⟨rfl, (search_unloaded okParse idRun ksEmpty "f 500" 5 rfl).1 (Or.inl rfl)⟩

theorem buildResults_length (nq : String) :
    ∀ (hits : List Doc) (i : Nat), (buildResults nq i hits).length = hits.length := by
  intro hits
  induction hits with
  | nil => intro i; rfl
  | cons h t ih =>
    intro i
    show (buildResults nq i (h :: t)).length = t.length + 1
    simp only [buildResults, List.length_cons, ih (i + 1)]

theorem buildResults_rank (nq : String) :
    ∀ (hits : List Doc) (i j : Nat) (hj : j < (buildResults nq i hits).length),
      ((buildResults nq i hits).get ⟨j, hj⟩).rank = i + j + 1 := by
  intro hits
  induction hits with
  | nil =>
    intro i j hj
    simp [buildResults] at hj
  | cons h t ih =>
    intro i j hj
    match j with
    | 0 => rfl
    | j' + 1 =>
      have hj' : j' < (buildResults nq (i + 1) t).length := by
        have := hj
        simp only [buildResults, List.length_cons] at this
        omega
      have := ih (i + 1) j' hj'
      show ((buildResults nq (i + 1) t).get ⟨j', hj'⟩).rank = i + (j' + 1) + 1
      rw [this]
      omega

theorem searchCore_ok {Q : Type} (parse : String → Except String Q)
    (run : Q → List Doc → List Doc) (s : KS) (entries : List Doc)
    (q : String) (k : Nat) (res : List SearchResult) (s' : KS)
    (h : searchCore parse run s entries q k = Except.ok (res, s')) :
    res.length ≤ k ∧
    ∀ i (hi : i < res.length), (res.get ⟨i, hi⟩).rank = i + 1 := by
  simp only [searchCore] at h
  match hp : parse (normalize_query q) with
  | .error e =>
    rw [hp] at h
    exact absurd h (by simp)
  | .ok pq =>
    rw [hp] at h
    simp only [] at h
    simp only [Except.ok.injEq, Prod.mk.injEq] at h
    rcases h with ⟨hres, -⟩
    subst hres
    constructor
    · rw [buildResults_length]
      rw [List.length_take]
      exact min_le_left _ _
    · intro i hi
      rw [buildResults_rank]
      omega

/-- Claim C10: whenever `search` returns a result list, the list holds
at most `max_results` entries, and each returned result's `rank` equals
its 1-based position in the list (the first result has rank 1, the
`i`-th has rank `i + 1`). -/
theorem search_bound_and_ranks {Q : Type} (parse : String → Except String Q)
    (run : Q → List Doc → List Doc) (s : KS) (q : String) (k : Nat)
    (_hk : 1 ≤ k) (res : List SearchResult) (s' : KS)
    (h : search parse run s q k = Except.ok (res, s')) :
    res.length ≤ k ∧
    ∀ i (hi : i < res.length), (res.get ⟨i, hi⟩).rank = i + 1 := by
  unfold search at h
  match hix : s.ix with
  | some entries =>
    rw [hix] at h
    exact searchCore_ok parse run s entries q k res s' h
  | none =>
    rw [hix] at h
    match hl : load_index s with
    | (true, s2) =>
      rw [hl] at h
      exact searchCore_ok parse run s2 (s2.ix.getD []) q k res s' h
    | (false, s2) =>
      rw [hl] at h
      simp only [Except.ok.injEq, Prod.mk.injEq] at h
      rcases h with ⟨hres, -⟩
      subst hres
      exact ⟨Nat.zero_le k, fun i hi => absurd hi (by simp)⟩

theorem search_bound_and_ranks_witness :
    1 ≤ 1 ∧
    search okParse idRun ksLoaded "f 500" 1 =
      Except.ok (buildResults (normalize_query "f 500") 0
        ([docA, docB].take 1), ksLoaded) ∧
    (buildResults (normalize_query "f 500") 0 ([docA, docB].take 1)).length ≤ 1 ∧
    ∀ i (hi : i < (buildResults (normalize_query "f 500") 0
        ([docA, docB].take 1)).length),
      ((buildResults (normalize_query "f 500") 0
        ([docA, docB].take 1)).get ⟨i, hi⟩).rank = i + 1 := by
  refine ⟨Nat.le_refl 1, rfl, ?_⟩
  exact search_bound_and_ranks okParse idRun ksLoaded "f 500" 1
    (Nat.le_refl 1) _ ksLoaded rfl

/-- A parse step that always fails, standing in for a failing Whoosh
parser call in concrete instances. -/
def failParse : String → Except String String := fun _ => .error "parse failure"

/-- Claim C8 counterexample: with a loaded index, a failure raised by
the query-parsing step inside the core search operation is not caught
anywhere in `search`: the call returns that failure to the caller
instead of an empty or degraded result list. -/
theorem search_failure_propagates :
    search failParse idRun ksLoaded "f 500" 5 = .error "parse failure" := rfl

/-- Claim C8 (amended): `search` installs no failure handler: whenever
an index is loaded and the query-parse step fails, the failure
propagates unchanged to the caller; only the unloaded-and-unloadable
path is converted into an empty result.  (The HTTP layer in
src/server.py, not the core, catches propagated failures.) -/
theorem search_no_handler {Q : Type} (parse : String → Except String Q)
    (run : Q → List Doc → List Doc) (s : KS) (entries : List Doc)
    (q : String) (k : Nat) (e : String)
    (hix : s.ix = some entries)
    (hp : parse (normalize_query q) = .error e) :
    search parse run s q k = .error e := by
  unfold search
  rw [hix]
  show searchCore parse run s entries q k = .error e
  simp only [searchCore]
  rw [hp]

theorem search_no_handler_witness :
    ksLoaded.ix = some [docA, docB] ∧
    failParse (normalize_query "f 500") = .error "parse failure" ∧
    search failParse idRun ksLoaded "f 500" 5 = .error "parse failure" :=
  ⟨rfl, rfl,
    search_no_handler failParse idRun ksLoaded [docA, docB] "f 500" 5
      "parse failure" rfl rfl⟩

/-- A state whose single indexed entry stores the case-preserving
product token `"F500"` that the scanners produce from filenames such as
`B_F500_AM_Aviation.pdf`. -/
def ksF500 : KS :=
  { fs := { dirExists := true, store := some [docA] }, ix := some [docA] }

/-- Claim C7 counterexample: `docA`'s stored product `"F500"` equals
the queried name `"f500"` case-insensitively, yet `get_by_product`
returns nothing: only the query side is lowercased while the stored
keyword token is matched literally, so a stored product differing in
case is missed. -/
theorem get_by_product_case_miss :
    lowerStr docA.product.data = "f500".data ∧
    (get_by_product ksF500 "f500" 10).1 = [] := by
  exact ⟨rfl, rfl⟩

/-- Claim C7 (amended): `get_by_product` queries only the `product`
keyword field with the lowercased name: every returned entry's stored
product holds the lowercased name as a literal keyword token — so a
content-only mention of the name never matches, and a stored product
that differs from the lowercased name (even only in case) does not
match — and, when at most `max_results` entries match, every literally
matching entry is returned. -/
theorem get_by_product_literal (s : KS) (entries : List Doc) (name : String)
    (k : Nat) (hix : s.ix = some entries) :
    (∀ r ∈ (get_by_product s name k).1, ∃ d ∈ entries,
        productMatch name d = true ∧ r = toProductResult d) ∧
    ((entries.filter (productMatch name)).length ≤ k →
      ∀ d ∈ entries, productMatch name d = true →
        toProductResult d ∈ (get_by_product s name k).1) := by
  have hgbp : (get_by_product s name k).1 = gbpCore entries name k := by
    unfold get_by_product
    rw [hix]
  rw [hgbp]
  constructor
  · intro r hr
    unfold gbpCore at hr
    rcases List.mem_map.mp hr with ⟨d, hd, rfl⟩
    have hd2 : d ∈ entries.filter (productMatch name) := List.take_subset _ _ hd
    rcases List.mem_filter.mp hd2 with ⟨hmem, hmatch⟩
    exact ⟨d, hmem, hmatch, rfl⟩
  · intro hlen d hd hmatch
    unfold gbpCore
    rw [List.take_of_length_le hlen]
    exact List.mem_map.mpr ⟨d, List.mem_filter.mpr ⟨hd, hmatch⟩, rfl⟩

/-- An entry that merely mentions "f500" in its content. -/
def docC : Doc :=
  { filename := "S_Pinnacle_XX_Spray.txt", path := "", category := "S",
    product := "Pinnacle", subcategory := "", topic := "Spray",
    content := "works alongside f500 products" }

/-- An entry whose stored product token is already lowercase. -/
def docD : Doc :=
  { filename := "B_f500_XX_Basics.txt", path := "", category := "B",
    product := "f500", subcategory := "", topic := "Basics",
    content := "gamma" }

/-- A state loaded with one literally matching and one content-only
entry. -/
def ks7 : KS :=
  { fs := { dirExists := true, store := some [docD, docC] },
    ix := some [docD, docC] }

theorem get_by_product_literal_witness :
    ks7.ix = some [docD, docC] ∧
    (∀ r ∈ (get_by_product ks7 "F500" 10).1, ∃ d ∈ [docD, docC],
        productMatch "F500" d = true ∧ r = toProductResult d) ∧
    (([docD, docC].filter (productMatch "F500")).length ≤ 10 →
      ∀ d ∈ [docD, docC], productMatch "F500" d = true →
        toProductResult d ∈ (get_by_product ks7 "F500" 10).1) :=
  ⟨rfl, (get_by_product_literal ks7 [docD, docC] "F500" 10 rfl).1,
    (get_by_product_literal ks7 [docD, docC] "F500" 10 rfl).2⟩
